import Mathlib

/-!
Verification development for the comment-tree assembly and interaction
aggregation backend (comment routes: create, list-nested, update, toggle-like).

The definitions below are a shallow embedding of the route handlers in the
comment routes module.  Database rows become Lean structures, timestamps
become naturals, the relational store becomes explicit lists of rows, and
the recursive nested-comment materialization is written with an explicit
recursion-depth bound (fuel); the route invokes it with fuel equal to the
number of fetched rows, which never truncates when parent links are acyclic
(the database invariant: a parent link is fixed at creation to an already
existing comment).
-/

namespace DIU

/-- A row of the `comments` table: id, postId, userId, content,
parentCommentId (nullable), createdAt, updatedAt. -/
structure Comment where
  id : String
  postId : String
  userId : String
  content : String
  parentCommentId : Option String
  createdAt : Nat
  updatedAt : Nat
deriving DecidableEq, Repr

/-- A row of the `user_profiles` table (the columns the routes read). -/
structure UserProfile where
  userId : String
  username : String
deriving DecidableEq, Repr

/-- A row of the `comment_likes` table. -/
structure CommentLike where
  id : Nat
  commentId : String
  userId : String
deriving DecidableEq, Repr

/-- A row of the `posts` table (only the id is consulted by these routes). -/
structure Post where
  id : String
deriving DecidableEq, Repr

/-- The response shape produced by `buildNestedComment`: the comment's fields
plus resolved author name, aggregate like count, the requester-specific
`hasLiked` flag and the recursively nested `replies` array.  The `replies`
field is part of the structure, hence always present in the response shape. -/
structure CommentNode where
  id : String
  content : String
  authorUsername : String
  authorId : String
  createdAt : Nat
  parentCommentId : Option String
  hasLiked : Bool
  likeCount : Nat
  replies : List CommentNode
deriving Repr

/-- JavaScript truthiness of the `parentCommentId` column as the handlers use
it (`if (comment.parentCommentId)` and `!c.parentCommentId`): `null` and the
empty string are both falsy. -/
def truthyParent (c : Comment) : Option String :=
  match c.parentCommentId with
  | none => none
  | some p => if p = "" then none else some p

/-- `userProfilesMap` resolution combined with the
`userProfile?.username || 'anonymous'` fallback of `buildNestedComment`:
a missing profile row, and a profile row whose username is the (falsy) empty
string, both resolve to the literal placeholder. -/
def usernameFor (profiles : List UserProfile) (userId : String) : String :=
  match profiles.find? (fun p => p.userId = userId) with
  | none => "anonymous"
  | some p => if p.username = "" then "anonymous" else p.username

/-- `commentLikeCountMap`: `SELECT count(comment_likes.id) WHERE comment_id = cid`,
i.e. the number of like rows for the comment. -/
def commentLikeCount (likes : List CommentLike) (cid : String) : Nat :=
  (likes.filter (fun l => l.commentId = cid)).length

/-- `repliesByParentId.get(pid) || []`: the fetched comments whose (truthy)
parent id equals `pid`, in fetch order — the map is populated by one pass over
`allComments` pushing each reply onto its parent's bucket. -/
def repliesFor (allComments : List Comment) (pid : String) : List Comment :=
  allComments.filter (fun c => truthyParent c = some pid)

/-- `allComments.filter(c => !c.parentCommentId)`: the root comments. -/
def topLevelComments (allComments : List Comment) : List Comment :=
  allComments.filter (fun c => (truthyParent c).isNone)

/-- `buildNestedComment`, the recursive nested-reply materialization.  `fuel`
bounds the recursion depth (the handler's recursion is unbounded but the
route only ever reaches depth below the number of fetched rows, see the
module comment); at fuel `0` the replies array is truncated to empty.
`hasLiked` is the literal `false` of the handler (public endpoint, no
requester resolution). -/
def buildNestedComment (allComments : List Comment) (profiles : List UserProfile)
    (likes : List CommentLike) : Nat → Comment → CommentNode
  | 0, c =>
    { id := c.id
      content := c.content
      authorUsername := usernameFor profiles c.userId
      authorId := c.userId
      createdAt := c.createdAt
      parentCommentId := c.parentCommentId
      hasLiked := false
      likeCount := commentLikeCount likes c.id
      replies := [] }
  | fuel + 1, c =>
    { id := c.id
      content := c.content
      authorUsername := usernameFor profiles c.userId
      authorId := c.userId
      createdAt := c.createdAt
      parentCommentId := c.parentCommentId
      hasLiked := false
      likeCount := commentLikeCount likes c.id
      replies := (repliesFor allComments c.id).map
        (buildNestedComment allComments profiles likes fuel) }

/-- `Math.min(parseInt(query.limit || '20'), 100)` for a well-formed numeric
query string, absent modelled as `none`. -/
def effLimit (limitParam : Option Nat) : Nat :=
  min (limitParam.getD 20) 100

/-- `parseInt(query.offset || '0')` for a well-formed numeric query string. -/
def effOffset (offsetParam : Option Nat) : Nat :=
  offsetParam.getD 0

/-- The response of `GET /api/posts/:postId/comments` given the fetched
comment rows of the post (`allComments`, in the fetch order), the profile and
like tables, and the pagination query parameters:
`topLevelComments.slice(offset, offset + limit).map(buildNestedComment)`. -/
def getPostComments (allComments : List Comment) (profiles : List UserProfile)
    (likes : List CommentLike) (limitParam offsetParam : Option Nat) :
    List CommentNode :=
  (((topLevelComments allComments).drop (effOffset offsetParam)).take
      (effLimit limitParam)).map
    (buildNestedComment allComments profiles likes allComments.length)

mutual

/-- Flatten a `CommentNode`: the node followed by the flattening of its
replies (a specification device for counting emitted nodes). -/
def flattenNode : CommentNode → List CommentNode
  | ⟨i, c, au, ai, ca, p, hl, lc, replies⟩ =>
    ⟨i, c, au, ai, ca, p, hl, lc, replies⟩ :: flattenList replies

/-- Flatten a list of `CommentNode`s. -/
def flattenList : List CommentNode → List CommentNode
  | [] => []
  | n :: rest => flattenNode n ++ flattenList rest

end

/-- Flatten a whole emitted forest. -/
def flattenForest (forest : List CommentNode) : List CommentNode :=
  flattenList forest

/-! ### Parent-chain machinery (specification side)

`descList` is the comment-level skeleton of the recursive materialization;
`chainResolves` decides whether a comment's transitive parent chain is fully
resolvable within the fetched set; `parentIn`/`ancestorAt` follow the chain
one hop / `d` hops upward. -/

/-- Comment-level skeleton of `buildNestedComment`: the comment followed by
the (fuel-bounded) descendant lists of its direct replies. -/
def descList (allComments : List Comment) : Nat → Comment → List Comment
  | 0, c => [c]
  | fuel + 1, c =>
    c :: (repliesFor allComments c.id).flatMap (descList allComments fuel)

/-- Does the parent chain of `c` resolve within `allComments` in at most
`fuel` upward hops (ending at a comment with no parent)? -/
def chainResolves (allComments : List Comment) : Nat → Comment → Bool
  | 0, c => (truthyParent c).isNone
  | fuel + 1, c =>
    match truthyParent c with
    | none => true
    | some pid =>
      match allComments.find? (fun p => p.id = pid) with
      | none => false
      | some p => chainResolves allComments fuel p

/-- The parent comment of `c` resolved inside the fetched set. -/
def parentIn (allComments : List Comment) (c : Comment) : Option Comment :=
  match truthyParent c with
  | none => none
  | some pid => allComments.find? (fun p => p.id = pid)

/-- The ancestor of `c` reached after `d` upward hops inside the set. -/
def ancestorAt (allComments : List Comment) : Nat → Comment → Option Comment
  | 0, c => some c
  | d + 1, c => (parentIn allComments c).bind (ancestorAt allComments d)

/-! ### Write endpoints -/

/-- JavaScript `String.prototype.trim()`: strip leading and trailing
whitespace (written over the character list so that it evaluates inside the
kernel). -/
def jsTrim (s : String) : String :=
  ⟨((s.data.dropWhile Char.isWhitespace).reverse.dropWhile
      Char.isWhitespace).reverse⟩

/-- The `parentCommentId || null` normalization applied by the create
handler both when guarding (`if (parentCommentId)`) and when inserting:
absent and empty-string parent ids collapse to `null`. -/
def truthyParam : Option String → Option String
  | none => none
  | some p => if p = "" then none else some p

/-- The error responses of `POST /api/posts/:postId/comments`, in handler
order. -/
inductive CreateError where
  | invalidContent
  | postNotFound
  | parentNotFound
  | parentDifferentPost
deriving DecidableEq, Repr

/-- `POST /api/posts/:postId/comments` for an authenticated author `uid`.
`newId` and `now` stand for the store-generated row id and timestamp.
Returns the response together with the resulting comments table (unchanged
on every error). Handler order: content non-empty after trimming, then post
exists, then — when the (truthy) parent id is given — parent exists, then
parent belongs to the same post; only then is the row inserted with the
trimmed content and the `parentCommentId || null` normalization. -/
def createComment (posts : List Post) (comments : List Comment)
    (postId : String) (uid : String) (content : String)
    (parentCommentId : Option String) (newId : String) (now : Nat) :
    Except CreateError Comment × List Comment :=
  if jsTrim content = "" then
    (.error .invalidContent, comments)
  else
    match posts.find? (fun p => p.id = postId) with
    | none => (.error .postNotFound, comments)
    | some _ =>
      match truthyParam parentCommentId with
      | none =>
        let newComment : Comment :=
          ⟨newId, postId, uid, jsTrim content, none, now, now⟩
        (.ok newComment, comments ++ [newComment])
      | some pid =>
        match comments.find? (fun c => c.id = pid) with
        | none => (.error .parentNotFound, comments)
        | some parent =>
          if parent.postId ≠ postId then
            (.error .parentDifferentPost, comments)
          else
            let newComment : Comment :=
              ⟨newId, postId, uid, jsTrim content, some pid, now, now⟩
            (.ok newComment, comments ++ [newComment])

/-- The error responses of `PUT /api/comments/:commentId`. -/
inductive UpdateError where
  | invalidContent
  | notFound
  | forbidden
deriving DecidableEq, Repr

/-- `PUT /api/comments/:commentId` for an authenticated requester `uid`:
content validation, lookup, ownership check, then
`UPDATE comments SET content = trimmed, updated_at = now WHERE id = commentId`.
Returns the response and the resulting comments table. -/
def updateComment (comments : List Comment) (commentId : String)
    (uid : String) (content : String) (now : Nat) :
    Except UpdateError Comment × List Comment :=
  if jsTrim content = "" then
    (.error .invalidContent, comments)
  else
    match comments.find? (fun c => c.id = commentId) with
    | none => (.error .notFound, comments)
    | some c =>
      if c.userId ≠ uid then
        (.error .forbidden, comments)
      else
        let updated := comments.map fun x =>
          if x.id = commentId then
            { x with content := jsTrim content, updatedAt := now }
          else x
        (.ok { c with content := jsTrim content, updatedAt := now }, updated)

/-- The `comment_likes` table together with the store's id generator
(modelling the uuid default: fresh ids never collide with stored rows). -/
structure LikeStore where
  rows : List CommentLike
  nextId : Nat
deriving Repr

/-- Does `uid` hold an active like on comment `cid`? -/
def hasActiveLike (rows : List CommentLike) (cid uid : String) : Bool :=
  rows.any fun l => l.commentId = cid && l.userId = uid

/-- The number of distinct authors holding an active like on `cid`. -/
def distinctLikerCount (rows : List CommentLike) (cid : String) : Nat :=
  ((rows.filter (fun l => l.commentId = cid)).map (fun l => l.userId)).dedup.length

/-- `POST /api/comments/:commentId/like` for authenticated `uid`:
404 when the comment does not exist; otherwise delete the requester's
existing like row (by its row id) or insert a fresh one, then report
`{ liked, likeCount }` with the recount.  Returns the response and the
resulting like store. -/
def toggleLike (comments : List Comment) (st : LikeStore)
    (cid uid : String) : Except Unit (Bool × Nat) × LikeStore :=
  match comments.find? (fun c => c.id = cid) with
  | none => (.error (), st)
  | some _ =>
    match st.rows.find? (fun l => l.commentId = cid && l.userId = uid) with
    | some existing =>
      let rows := st.rows.filter fun l => l.id ≠ existing.id
      (.ok (false, commentLikeCount rows cid), { st with rows := rows })
    | none =>
      let rows := st.rows ++ [⟨st.nextId, cid, uid⟩]
      (.ok (true, commentLikeCount rows cid), ⟨rows, st.nextId + 1⟩)

/-- Well-formedness of the like store: distinct row ids, all below the id
generator, and the `unique_comment_like` unique index on
`(comment_id, user_id)`. -/
def LikeStoreWF (st : LikeStore) : Prop :=
  (st.rows.map (fun l => l.id)).Nodup ∧
  (∀ l ∈ st.rows, l.id < st.nextId) ∧
  (st.rows.map (fun l => (l.commentId, l.userId))).Nodup

/-! ### Sortedness of the emitted forest -/

/-- Are adjacent nodes of a reply list ordered newest-first? -/
def descChain : List CommentNode → Bool
  | [] => true
  | [_] => true
  | a :: b :: t => (b.createdAt ≤ a.createdAt) && descChain (b :: t)

mutual

/-- Is a node's reply list newest-first at every nesting level? -/
def nodeSorted : CommentNode → Bool
  | ⟨_, _, _, _, _, _, _, _, replies⟩ =>
    descChain replies && nodeListSorted replies

/-- All nodes of a list sorted at every nesting level. -/
def nodeListSorted : List CommentNode → Bool
  | [] => true
  | n :: rest => nodeSorted n && nodeListSorted rest

end

/-- The fetch order contract of the comment fetcher
(`orderBy: desc(createdAt)`): pairwise newest-first. -/
def SortedDesc (l : List Comment) : Prop :=
  l.Pairwise fun a b => b.createdAt ≤ a.createdAt

/-! ### Concrete instances used by witnesses and counterexamples -/

/-- Root comment A ("first") of the documentation scenario. -/
def c7A : Comment := ⟨"A", "P", "ua", "first", none, 1, 1⟩

/-- Reply B ("reply") to comment A. -/
def c7B : Comment := ⟨"B", "P", "ub", "reply", some "A", 2, 2⟩

/-- Root comment C ("second"), the newest. -/
def c7C : Comment := ⟨"C", "P", "uc", "second", none, 3, 3⟩

/-- The fetched set of the scenario, in fetch order (newest first). -/
def fetched7 : List Comment := [c7C, c7B, c7A]

/-- A comment on which the requester of the C2 counterexample holds a like. -/
def likedComment : Comment := ⟨"c1", "P", "w", "hello", none, 1, 1⟩

/-- The like row held by requester `u` on `likedComment`. -/
def requesterLike : CommentLike := ⟨0, "c1", "u"⟩

/-- A reply whose declared parent id `"a"` does not exist in the fetched
set. -/
def orphanReply : Comment := ⟨"b", "P", "u", "hi", some "a", 1, 1⟩

/-- A root comment accompanying the orphaned reply in the amended-C1
witness. -/
def rootR : Comment := ⟨"r", "P", "u", "root", none, 5, 5⟩

/-- The B-node of the scenario (nested under A). -/
def node7B : CommentNode := ⟨"B", "reply", "anonymous", "ub", 2, some "A", false, 0, []⟩

/-- The A-node of the scenario (`replies == [B-node]`). -/
def node7A : CommentNode := ⟨"A", "first", "anonymous", "ua", 1, none, false, 0, [node7B]⟩

/-- The C-node of the scenario (`replies == []`). -/
def node7C : CommentNode := ⟨"C", "second", "anonymous", "uc", 3, none, false, 0, []⟩

/-- The scenario set extended with an orphaned reply: three resolvable rows
and one unresolvable one. -/
def fetched3 : List Comment := [c7C, c7B, c7A, orphanReply]

/-! ### Basic lemmas about the materialization -/

lemma flattenNode_cons (n : CommentNode) :
    flattenNode n = n :: flattenList n.replies := by
  cases n; rfl

lemma flattenList_eq (l : List CommentNode) :
    flattenList l = l.flatMap flattenNode := by
  induction l with
  | nil => rfl
  | cons n rest ih => simp [flattenList, ih]

lemma mem_flattenForest {node : CommentNode} {forest : List CommentNode} :
    node ∈ flattenForest forest ↔ ∃ r ∈ forest, node ∈ flattenNode r := by
  simp [flattenForest, flattenList_eq]

lemma buildNestedComment_hasLiked (cs : List Comment) (ps : List UserProfile)
    (ls : List CommentLike) (fuel : Nat) (c : Comment) :
    (buildNestedComment cs ps ls fuel c).hasLiked = false := by
  cases fuel <;> rfl

lemma buildNestedComment_id (cs : List Comment) (ps : List UserProfile)
    (ls : List CommentLike) (fuel : Nat) (c : Comment) :
    (buildNestedComment cs ps ls fuel c).id = c.id := by
  cases fuel <;> rfl

lemma buildNestedComment_authorId (cs : List Comment) (ps : List UserProfile)
    (ls : List CommentLike) (fuel : Nat) (c : Comment) :
    (buildNestedComment cs ps ls fuel c).authorId = c.userId := by
  cases fuel <;> rfl

lemma buildNestedComment_authorUsername (cs : List Comment)
    (ps : List UserProfile) (ls : List CommentLike) (fuel : Nat) (c : Comment) :
    (buildNestedComment cs ps ls fuel c).authorUsername =
      usernameFor ps c.userId := by
  cases fuel <;> rfl

lemma buildNestedComment_likeCount (cs : List Comment) (ps : List UserProfile)
    (ls : List CommentLike) (fuel : Nat) (c : Comment) :
    (buildNestedComment cs ps ls fuel c).likeCount =
      commentLikeCount ls c.id := by
  cases fuel <;> rfl

lemma buildNestedComment_replies (cs : List Comment) (ps : List UserProfile)
    (ls : List CommentLike) (fuel : Nat) (c : Comment) :
    (buildNestedComment cs ps ls (fuel + 1) c).replies =
      (repliesFor cs c.id).map (buildNestedComment cs ps ls fuel) := rfl

lemma mem_repliesFor {cs : List Comment} {pid : String} {c : Comment} :
    c ∈ repliesFor cs pid ↔ c ∈ cs ∧ truthyParent c = some pid := by
  simp [repliesFor]

lemma mem_topLevelComments {cs : List Comment} {c : Comment} :
    c ∈ topLevelComments cs ↔ c ∈ cs ∧ truthyParent c = none := by
  simp [topLevelComments, Option.isNone_iff_eq_none]

/-- Every node of the flattening of a materialized subtree is itself a
materialized node, of the root comment or of a fetched comment. -/
lemma mem_flattenNode_build {cs : List Comment} {ps : List UserProfile}
    {ls : List CommentLike} :
    ∀ fuel (c : Comment) (node : CommentNode),
      node ∈ flattenNode (buildNestedComment cs ps ls fuel c) →
      ∃ g d, (d = c ∨ d ∈ cs) ∧ node = buildNestedComment cs ps ls g d := by
  intro fuel
  induction fuel with
  | zero =>
    intro c node h
    rw [flattenNode_cons] at h
    have hrep : (buildNestedComment cs ps ls 0 c).replies = [] := rfl
    rw [hrep] at h
    simp only [flattenList] at h
    rcases List.mem_singleton.mp h with rfl
    exact ⟨0, c, Or.inl rfl, rfl⟩
  | succ fuel ih =>
    intro c node h
    rw [flattenNode_cons] at h
    rcases List.mem_cons.mp h with rfl | h
    · exact ⟨fuel + 1, c, Or.inl rfl, rfl⟩
    · rw [buildNestedComment_replies, flattenList_eq] at h
      rcases List.mem_flatMap.mp h with ⟨m, hm, hnode⟩
      rcases List.mem_map.mp hm with ⟨k, hk, rfl⟩
      rcases ih k node hnode with ⟨g, d, hd, rfl⟩
      refine ⟨g, d, Or.inr ?_, rfl⟩
      rcases hd with rfl | hd
      · exact (mem_repliesFor.mp hk).1
      · exact hd

/-- Every node anywhere in the emitted response is a materialized node of
some fetched comment. -/
lemma mem_flattenForest_getPostComments {cs : List Comment}
    {ps : List UserProfile} {ls : List CommentLike}
    {limitParam offsetParam : Option Nat} {node : CommentNode} :
    node ∈ flattenForest (getPostComments cs ps ls limitParam offsetParam) →
    ∃ g d, d ∈ cs ∧ node = buildNestedComment cs ps ls g d := by
  intro h
  rcases mem_flattenForest.mp h with ⟨r, hr, hnode⟩
  rcases List.mem_map.mp hr with ⟨c0, hc0, rfl⟩
  have hc0cs : c0 ∈ cs :=
    (mem_topLevelComments.mp
      (List.mem_of_mem_drop (List.mem_of_mem_take hc0))).1
  rcases mem_flattenNode_build _ c0 node hnode with ⟨g, d, hd, rfl⟩
  refine ⟨g, d, ?_, rfl⟩
  rcases hd with rfl | hd
  · exact hc0cs
  · exact hd

/-! ### Parent-chain lemmas -/

lemma descList_subset {cs : List Comment} :
    ∀ fuel (r : Comment), r ∈ cs → ∀ x ∈ descList cs fuel r, x ∈ cs := by
  intro fuel
  induction fuel with
  | zero =>
    intro r hr x hx
    rcases List.mem_singleton.mp hx with rfl
    exact hr
  | succ fuel ih =>
    intro r hr x hx
    rcases List.mem_cons.mp hx with rfl | hx
    · exact hr
    · rcases List.mem_flatMap.mp hx with ⟨k, hk, hxk⟩
      exact ih k (mem_repliesFor.mp hk).1 x hxk

lemma mem_descList_parent {cs : List Comment} :
    ∀ fuel (r : Comment), r ∈ cs → ∀ x ∈ descList cs fuel r,
      x = r ∨ ∃ p ∈ cs, truthyParent x = some p.id := by
  intro fuel
  induction fuel with
  | zero =>
    intro r _ x hx
    exact Or.inl (List.mem_singleton.mp hx)
  | succ fuel ih =>
    intro r hr x hx
    rcases List.mem_cons.mp hx with rfl | hx
    · exact Or.inl rfl
    · rcases List.mem_flatMap.mp hx with ⟨k, hk, hxk⟩
      rcases mem_repliesFor.mp hk with ⟨hkcs, hkpar⟩
      rcases ih k hkcs x hxk with rfl | hp
      · exact Or.inr ⟨r, hr, hkpar⟩
      · exact Or.inr hp

/-- The ids occurring in a flattened materialized subtree are exactly the ids
of the comment-level descendant list. -/
lemma flattenNode_build_ids {cs : List Comment} {ps : List UserProfile}
    {ls : List CommentLike} :
    ∀ fuel (c : Comment),
      (flattenNode (buildNestedComment cs ps ls fuel c)).map (fun n => n.id) =
        (descList cs fuel c).map (fun x => x.id) := by
  intro fuel
  induction fuel with
  | zero =>
    intro c
    rfl
  | succ fuel ih =>
    intro c
    rw [flattenNode_cons, buildNestedComment_replies, flattenList_eq]
    show (buildNestedComment cs ps ls (fuel + 1) c).id ::
        (((repliesFor cs c.id).map
          (buildNestedComment cs ps ls fuel)).flatMap flattenNode).map
            (fun n => n.id) = _
    rw [buildNestedComment_id]
    show _ = c.id :: ((repliesFor cs c.id).flatMap
      (descList cs fuel)).map (fun x => x.id)
    congr 1
    rw [List.flatMap_map, List.map_flatMap, List.map_flatMap]
    exact List.flatMap_congr fun k _ => ih k

/-! ### Ancestor-chain algebra (for the node-count claim) -/

lemma ancestorAt_succ (cs : List Comment) (d : Nat) (x : Comment) :
    ancestorAt cs (d + 1) x = (parentIn cs x).bind (ancestorAt cs d) := rfl

lemma ancestorAt_add (cs : List Comment) :
    ∀ a b (x : Comment),
      ancestorAt cs (a + b) x = (ancestorAt cs a x).bind (ancestorAt cs b) := by
  intro a
  induction a with
  | zero =>
    intro b x
    rw [Nat.zero_add]
    rfl
  | succ a ih =>
    intro b x
    rw [Nat.succ_add, ancestorAt_succ, ancestorAt_succ]
    cases parentIn cs x with
    | none => rfl
    | some p =>
      show ancestorAt cs (a + b) p = (ancestorAt cs a p).bind (ancestorAt cs b)
      exact ih b p

lemma ancestorAt_ext (cs : List Comment) (d : Nat) (x : Comment) :
    ancestorAt cs (d + 1) x = (ancestorAt cs d x).bind (parentIn cs) := by
  rw [ancestorAt_add cs d 1]
  cases ancestorAt cs d x with
  | none => rfl
  | some y =>
    show ancestorAt cs 1 y = parentIn cs y
    rw [ancestorAt_succ]
    cases parentIn cs y <;> rfl

lemma ancestorAt_none_add (cs : List Comment) {m : Nat} {x : Comment}
    (h : ancestorAt cs m x = none) (t : Nat) :
    ancestorAt cs (m + t) x = none := by
  rw [ancestorAt_add, h]
  rfl

/-- A comment sitting on an ancestor cycle is never grounded. -/
lemma no_cycle_of_grounded (cs : List Comment) {r : Comment} {m : Nat}
    (hg : ancestorAt cs m r = none) {q : Nat} (hq : 1 ≤ q)
    (hcyc : ancestorAt cs q r = some r) : False := by
  have pump : ∀ k, ancestorAt cs (k * q) r = some r := by
    intro k
    induction k with
    | zero =>
      rw [Nat.zero_mul]
      rfl
    | succ k ih =>
      rw [Nat.succ_mul, ancestorAt_add, ih]
      exact hcyc
  have hge : m ≤ m * q := Nat.le_mul_of_pos_right m hq
  have hnone : ancestorAt cs (m * q) r = none := by
    have := ancestorAt_none_add cs hg (m * q - m)
    rwa [Nat.add_sub_cancel' hge] at this
  rw [pump m] at hnone
  exact Option.noConfusion hnone

/-- Grounded targets are reached at a unique chain position. -/
lemma ancestorAt_unique_of_grounded (cs : List Comment) {c x : Comment}
    {m : Nat} (hg : ancestorAt cs m c = none) :
    ∀ {a b : Nat}, ancestorAt cs a x = some c → ancestorAt cs b x = some c →
      a = b := by
  have key : ∀ {a b : Nat}, a ≤ b → ancestorAt cs a x = some c →
      ancestorAt cs b x = some c → a = b := by
    intro a b hab ha hb
    rcases Nat.eq_or_lt_of_le hab with rfl | hlt
    · rfl
    · exfalso
      have hsplit : ancestorAt cs (a + (b - a)) x = some c := by
        rwa [Nat.add_sub_cancel' hab]
      rw [ancestorAt_add, ha] at hsplit
      exact no_cycle_of_grounded cs hg (by omega : 1 ≤ b - a) hsplit
  intro a b ha hb
  rcases Nat.le_total a b with h | h
  · exact key h ha hb
  · exact (key h hb ha).symm

/-- With distinct ids, `find?` on a member's id returns that member. -/
lemma find_id_self {cs : List Comment}
    (hn : (cs.map fun c => c.id).Nodup) {r : Comment} (hr : r ∈ cs) :
    cs.find? (fun p => p.id = r.id) = some r := by
  induction cs with
  | nil => cases hr
  | cons a t ih =>
    rcases List.mem_cons.mp hr with rfl | hrt
    · rw [List.find?_cons_of_pos _ (by simp)]
    · have hna : a.id ∉ t.map fun c => c.id := (List.nodup_cons.mp hn).1
      have hne : ¬(a.id = r.id) := fun h =>
        hna (h ▸ List.mem_map.mpr ⟨r, hrt, rfl⟩)
      rw [List.find?_cons_of_neg _ (by simpa using hne)]
      exact ih (List.nodup_cons.mp hn).2 hrt

lemma parentIn_of_reply {cs : List Comment}
    (hn : (cs.map fun c => c.id).Nodup) {r k : Comment} (hr : r ∈ cs)
    (hk : k ∈ repliesFor cs r.id) : parentIn cs k = some r := by
  rcases mem_repliesFor.mp hk with ⟨_, hpar⟩
  rw [parentIn, hpar]
  exact find_id_self hn hr

lemma parentIn_root {cs : List Comment} {r : Comment}
    (hr : truthyParent r = none) : parentIn cs r = none := by
  rw [parentIn, hr]

/-- Every root is grounded (its chain stops after one hop). -/
lemma grounded_of_root {cs : List Comment} {r : Comment}
    (hr : truthyParent r = none) : ancestorAt cs 1 r = none := by
  rw [ancestorAt_succ, parentIn_root hr]
  rfl

lemma mem_descList_self (cs : List Comment) :
    ∀ fuel (c : Comment), c ∈ descList cs fuel c := by
  intro fuel c
  cases fuel with
  | zero => exact List.mem_singleton.mpr rfl
  | succ fuel => exact List.mem_cons_self _ _

/-- Appending one hop: the direct replies of any member of a descendant list
are members of the next deeper descendant list. -/
lemma descList_step (cs : List Comment) :
    ∀ fuel (r p : Comment), p ∈ descList cs fuel r →
      ∀ k ∈ repliesFor cs p.id, k ∈ descList cs (fuel + 1) r := by
  intro fuel
  induction fuel with
  | zero =>
    intro r p hp k hk
    rcases List.mem_singleton.mp hp with rfl
    exact List.mem_cons_of_mem _
      (List.mem_flatMap.mpr ⟨k, hk, mem_descList_self cs 0 k⟩)
  | succ fuel ih =>
    intro r p hp k hk
    rcases List.mem_cons.mp hp with rfl | hp
    · exact List.mem_cons_of_mem _
        (List.mem_flatMap.mpr ⟨k, hk, mem_descList_self cs (fuel + 1) k⟩)
    · rcases List.mem_flatMap.mp hp with ⟨k0, hk0, hpk0⟩
      exact List.mem_cons_of_mem _
        (List.mem_flatMap.mpr ⟨k0, hk0, ih k0 p hpk0 k hk⟩)

/-! ### Resolvability lemmas -/

lemma chainResolves_succ_of (cs : List Comment) :
    ∀ fuel (c : Comment), chainResolves cs fuel c = true →
      chainResolves cs (fuel + 1) c = true := by
  intro fuel
  induction fuel with
  | zero =>
    intro c h
    cases htp : truthyParent c with
    | none => simp [chainResolves, htp]
    | some pid =>
      rw [chainResolves, htp] at h
      cases h
  | succ fuel ih =>
    intro c h
    cases htp : truthyParent c with
    | none => simp [chainResolves, htp]
    | some pid =>
      cases hf : cs.find? (fun p => p.id = pid) with
      | none =>
        simp only [chainResolves, htp, hf] at h
        cases h
      | some p =>
        simp only [chainResolves, htp, hf] at h
        show chainResolves cs (fuel + 1 + 1) c = true
        simp only [chainResolves, htp, hf]
        exact ih p h

lemma chainResolves_mono (cs : List Comment) {f g : Nat} (hfg : f ≤ g) :
    ∀ c, chainResolves cs f c = true → chainResolves cs g c = true := by
  intro c h
  obtain ⟨k, rfl⟩ : ∃ k, g = f + k := ⟨g - f, by omega⟩
  clear hfg
  induction k with
  | zero => exact h
  | succ k ih => exact chainResolves_succ_of cs (f + k) c ih

/-- A comment whose chain resolves is reached from some root. -/
lemma chainResolves_mem_forest (cs : List Comment) :
    ∀ fuel (x : Comment), x ∈ cs → chainResolves cs fuel x = true →
      ∃ r ∈ topLevelComments cs, x ∈ descList cs fuel r := by
  intro fuel
  induction fuel with
  | zero =>
    intro x hx h
    rw [chainResolves, Option.isNone_iff_eq_none] at h
    exact ⟨x, mem_topLevelComments.mpr ⟨hx, h⟩, mem_descList_self cs 0 x⟩
  | succ fuel ih =>
    intro x hx h
    cases htp : truthyParent x with
    | none =>
      exact ⟨x, mem_topLevelComments.mpr ⟨hx, htp⟩,
        mem_descList_self cs (fuel + 1) x⟩
    | some pid =>
      cases hf : cs.find? (fun p => p.id = pid) with
      | none =>
        simp only [chainResolves, htp, hf] at h
        cases h
      | some p =>
        simp only [chainResolves, htp, hf] at h
        have hpcs : p ∈ cs := List.mem_of_find?_eq_some hf
        have hpid : p.id = pid := by simpa using List.find?_some hf
        rcases ih p hpcs h with ⟨r, hr, hpdesc⟩
        refine ⟨r, hr, descList_step cs fuel r p hpdesc x ?_⟩
        exact mem_repliesFor.mpr ⟨hx, by rw [htp, hpid]⟩

/-- Everything in the descendant list of a resolvable comment resolves. -/
lemma chainResolves_of_descList {cs : List Comment}
    (hn : (cs.map fun c => c.id).Nodup) :
    ∀ fuel (r x : Comment), r ∈ cs → x ∈ descList cs fuel r →
      ∀ g, chainResolves cs g r = true →
        chainResolves cs (fuel + g) x = true := by
  intro fuel
  induction fuel with
  | zero =>
    intro r x _ hx g hg
    rcases List.mem_singleton.mp hx with rfl
    rw [Nat.zero_add]
    exact hg
  | succ fuel ih =>
    intro r x hr hx g hg
    rcases List.mem_cons.mp hx with rfl | hx
    · exact chainResolves_mono cs (by omega) x hg
    · rcases List.mem_flatMap.mp hx with ⟨k, hk, hxk⟩
      have hkcs : k ∈ cs := (mem_repliesFor.mp hk).1
      have hk1 : chainResolves cs (g + 1) k = true := by
        simp only [chainResolves, (mem_repliesFor.mp hk).2, find_id_self hn hr]
        exact hg
      have := ih k x hkcs hxk (g + 1) hk1
      have harith : fuel + (g + 1) = fuel + 1 + g := by omega
      rwa [harith] at this

/-- Every descendant reaches the subtree head along its ancestor chain,
within the recursion depth. -/
lemma descList_chain {cs : List Comment}
    (hn : (cs.map fun c => c.id).Nodup) :
    ∀ fuel (k x : Comment), k ∈ cs → x ∈ descList cs fuel k →
      ∃ d ≤ fuel, ancestorAt cs d x = some k := by
  intro fuel
  induction fuel with
  | zero =>
    intro k x _ hx
    rcases List.mem_singleton.mp hx with rfl
    exact ⟨0, Nat.le_refl 0, rfl⟩
  | succ fuel ih =>
    intro k x hk hx
    rcases List.mem_cons.mp hx with rfl | hx
    · exact ⟨0, Nat.zero_le _, rfl⟩
    · rcases List.mem_flatMap.mp hx with ⟨k2, hk2, hxk2⟩
      have hk2cs : k2 ∈ cs := (mem_repliesFor.mp hk2).1
      rcases ih k2 x hk2cs hxk2 with ⟨d, hd, hanc⟩
      refine ⟨d + 1, Nat.succ_le_succ hd, ?_⟩
      rw [ancestorAt_ext, hanc]
      exact parentIn_of_reply hn hk hk2

/-- Conversely, whoever reaches `r` along its chain within the depth bound
appears in `r`'s descendant list. -/
lemma descList_of_ancestorAt {cs : List Comment} :
    ∀ d fuel (x r : Comment), d ≤ fuel → x ∈ cs →
      ancestorAt cs d x = some r → x ∈ descList cs fuel r := by
  intro d
  induction d with
  | zero =>
    intro fuel x r _ _ hanc
    rcases Option.some.inj hanc with rfl
    exact mem_descList_self cs fuel x
  | succ d ih =>
    intro fuel x r hle hx hanc
    cases fuel with
    | zero => omega
    | succ fuel =>
      rw [ancestorAt_succ] at hanc
      cases hp : parentIn cs x with
      | none =>
        rw [hp] at hanc
        cases hanc
      | some p =>
        rw [hp] at hanc
        cases htp : truthyParent x with
        | none =>
          rw [parentIn, htp] at hp
          cases hp
        | some pid =>
          rw [parentIn, htp] at hp
          have hpcs : p ∈ cs := List.mem_of_find?_eq_some hp
          have hpid : p.id = pid := by simpa using List.find?_some hp
          have hpdesc : p ∈ descList cs fuel r :=
            ih fuel p r (by omega) hpcs hanc
          exact descList_step cs fuel r p hpdesc x
            (mem_repliesFor.mpr ⟨hx, by rw [htp, hpid]⟩)

/-! ### No duplicates in the emitted forest -/

lemma descList_nodup {cs : List Comment}
    (hn : (cs.map fun c => c.id).Nodup) :
    ∀ fuel (r : Comment), r ∈ cs → (∃ m, ancestorAt cs m r = none) →
      (descList cs fuel r).Nodup := by
  intro fuel
  induction fuel with
  | zero =>
    intro r _ _
    exact List.nodup_singleton r
  | succ fuel ih =>
    intro r hr hg
    rcases hg with ⟨m, hg⟩
    rw [descList, List.nodup_cons]
    constructor
    · intro hmem
      rcases List.mem_flatMap.mp hmem with ⟨k, hk, hrk⟩
      rcases descList_chain hn fuel k r (mem_repliesFor.mp hk).1 hrk
        with ⟨d, _, hanc⟩
      have hcyc : ancestorAt cs (d + 1) r = some r := by
        rw [ancestorAt_ext, hanc]
        exact parentIn_of_reply hn hr hk
      exact no_cycle_of_grounded cs hg (by omega) hcyc
    · rw [List.nodup_flatMap]
      constructor
      · intro k hk
        refine ih k (mem_repliesFor.mp hk).1 ⟨m + 1, ?_⟩
        rw [ancestorAt_succ, parentIn_of_reply hn hr hk]
        exact hg
      · have hkidsnd : (repliesFor cs r.id).Nodup :=
          (List.Nodup.of_map _ hn).filter _
        refine hkidsnd.imp_of_mem ?_
        intro k1 k2 hk1 hk2 hne
        intro x hx1 hx2
        rcases descList_chain hn fuel k1 x (mem_repliesFor.mp hk1).1 hx1
          with ⟨d1, _, h1⟩
        rcases descList_chain hn fuel k2 x (mem_repliesFor.mp hk2).1 hx2
          with ⟨d2, _, h2⟩
        have hr1 : ancestorAt cs (d1 + 1) x = some r := by
          rw [ancestorAt_ext, h1]
          exact parentIn_of_reply hn hr hk1
        have hr2 : ancestorAt cs (d2 + 1) x = some r := by
          rw [ancestorAt_ext, h2]
          exact parentIn_of_reply hn hr hk2
        have hd : d1 + 1 = d2 + 1 :=
          ancestorAt_unique_of_grounded cs hg hr1 hr2
        have hd12 : d1 = d2 := by omega
        rw [hd12, h2] at h1
        exact hne (Option.some.inj h1).symm

/-- Two distinct roots head disjoint subtrees. -/
lemma descList_roots_disjoint {cs : List Comment}
    (hn : (cs.map fun c => c.id).Nodup) {r1 r2 : Comment} {fuel : Nat}
    (hr1 : r1 ∈ cs) (hr2 : r2 ∈ cs)
    (h1root : truthyParent r1 = none) (h2root : truthyParent r2 = none)
    (hne : r1 ≠ r2) :
    (descList cs fuel r1).Disjoint (descList cs fuel r2) := by
  intro x hx1 hx2
  rcases descList_chain hn fuel r1 x hr1 hx1 with ⟨d1, _, h1⟩
  rcases descList_chain hn fuel r2 x hr2 hx2 with ⟨d2, _, h2⟩
  have key : ∀ {da db : Nat} {ra rb : Comment}, truthyParent ra = none →
      ancestorAt cs da x = some ra → ancestorAt cs db x = some rb →
      da < db → False := by
    intro da db ra rb hroot ha hb hlt
    have hnone : ancestorAt cs (da + 1) x = none := by
      rw [ancestorAt_ext, ha]
      exact parentIn_root hroot
    have hbnone : ancestorAt cs db x = none := by
      have := ancestorAt_none_add cs hnone (db - da - 1)
      rwa [show da + 1 + (db - da - 1) = db by omega] at this
    rw [hb] at hbnone
    cases hbnone
  rcases Nat.lt_trichotomy d1 d2 with hlt | heq | hgt
  · exact key h1root h1 h2 hlt
  · rw [heq, h2] at h1
    exact hne (Option.some.inj h1).symm
  · exact key h2root h2 h1 hgt

lemma forest_nodup {cs : List Comment}
    (hn : (cs.map fun c => c.id).Nodup) (fuel : Nat) :
    ((topLevelComments cs).flatMap (descList cs fuel)).Nodup := by
  rw [List.nodup_flatMap]
  constructor
  · intro r hr
    rcases mem_topLevelComments.mp hr with ⟨hrcs, hroot⟩
    exact descList_nodup hn fuel r hrcs ⟨1, grounded_of_root hroot⟩
  · have hroots : (topLevelComments cs).Nodup :=
      (List.Nodup.of_map _ hn).filter _
    refine hroots.imp_of_mem ?_
    intro r1 r2 hr1 hr2 hne
    rcases mem_topLevelComments.mp hr1 with ⟨h1cs, h1root⟩
    rcases mem_topLevelComments.mp hr2 with ⟨h2cs, h2root⟩
    exact descList_roots_disjoint hn h1cs h2cs h1root h2root hne

lemma mem_forest_iff {cs : List Comment}
    (hn : (cs.map fun c => c.id).Nodup) {x : Comment} :
    x ∈ (topLevelComments cs).flatMap (descList cs cs.length) ↔
      x ∈ cs ∧ chainResolves cs cs.length x = true := by
  constructor
  · intro h
    rcases List.mem_flatMap.mp h with ⟨r, hr, hx⟩
    rcases mem_topLevelComments.mp hr with ⟨hrcs, hroot⟩
    refine ⟨descList_subset cs.length r hrcs x hx, ?_⟩
    have h0 : chainResolves cs 0 r = true := by
      simp [chainResolves, hroot]
    have := chainResolves_of_descList hn cs.length r x hrcs hx 0 h0
    rwa [Nat.add_zero] at this
  · rintro ⟨hx, hres⟩
    rcases chainResolves_mem_forest cs cs.length x hx hres with ⟨r, hr, hxd⟩
    exact List.mem_flatMap.mpr ⟨r, hr, hxd⟩

lemma forest_length_eq {cs : List Comment}
    (hn : (cs.map fun c => c.id).Nodup) :
    ((topLevelComments cs).flatMap (descList cs cs.length)).length
      = (cs.filter fun c => chainResolves cs cs.length c).length := by
  apply List.Perm.length_eq
  rw [List.perm_ext_iff_of_nodup (forest_nodup hn cs.length)
    ((List.Nodup.of_map _ hn).filter _)]
  intro a
  rw [mem_forest_iff hn, List.mem_filter]

lemma flattenNode_build_length {cs : List Comment} {ps : List UserProfile}
    {ls : List CommentLike} (fuel : Nat) (c : Comment) :
    (flattenNode (buildNestedComment cs ps ls fuel c)).length
      = (descList cs fuel c).length := by
  have h := congrArg List.length (@flattenNode_build_ids cs ps ls fuel c)
  simpa using h

lemma flattenForest_map_build_length {cs : List Comment}
    {ps : List UserProfile} {ls : List CommentLike} (n : Nat) :
    ∀ l : List Comment,
      (flattenForest (l.map (buildNestedComment cs ps ls n))).length
        = (l.flatMap (descList cs n)).length := by
  intro l
  induction l with
  | nil => rfl
  | cons a t ih =>
    show (flattenList (buildNestedComment cs ps ls n a ::
        t.map (buildNestedComment cs ps ls n))).length = _
    rw [flattenList, List.length_append, List.flatMap_cons,
      List.length_append, flattenNode_build_length]
    exact congrArg _ ih

/-! ### Claims -/

/-- **C1, counterexample.** The fetched set holds a single reply whose
declared parent id `"a"` matches no fetched comment, and the flattened
response is empty: the orphaned reply appears nowhere (neither promoted to a
root nor nested), so it is dropped silently. -/
theorem claim1_counterexample :
    truthyParent orphanReply = some "a" ∧
    ([orphanReply].any fun c => c.id = "a") = false ∧
    flattenForest (getPostComments [orphanReply] [] [] none none) = [] :=
  ⟨rfl, rfl, rfl⟩

/-- **C1, amended.** A reply whose declared parent id does not exist in the
fetched set is silently dropped by the nested tree assembly: no node of the
response (root or nested) carries its id. -/
theorem claim1_orphan_dropped (cs : List Comment) (ps : List UserProfile)
    (ls : List CommentLike) (limitParam offsetParam : Option Nat)
    (x : Comment) (pid : String)
    (hn : (cs.map fun c => c.id).Nodup)
    (hx : x ∈ cs) (hp : truthyParent x = some pid)
    (hmiss : ∀ c ∈ cs, c.id ≠ pid)
    (node : CommentNode)
    (hnode : node ∈ flattenForest (getPostComments cs ps ls limitParam offsetParam)) :
    node.id ≠ x.id := by
  intro hid
  rcases mem_flattenForest.mp hnode with ⟨r0, hr0, hnr⟩
  rcases List.mem_map.mp hr0 with ⟨c0, hc0, rfl⟩
  have hc0root : c0 ∈ cs ∧ truthyParent c0 = none :=
    mem_topLevelComments.mp
      (List.mem_of_mem_drop (List.mem_of_mem_take hc0))
  have hidmem : node.id ∈
      (flattenNode (buildNestedComment cs ps ls cs.length c0)).map
        (fun n => n.id) :=
    List.mem_map.mpr ⟨node, hnr, rfl⟩
  rw [flattenNode_build_ids] at hidmem
  rcases List.mem_map.mp hidmem with ⟨y, hy, hyid⟩
  have hycs : y ∈ cs := descList_subset cs.length c0 hc0root.1 y hy
  have hxy : y = x :=
    List.inj_on_of_nodup_map hn hycs hx (by rw [hyid, hid])
  subst hxy
  rcases mem_descList_parent cs.length c0 hc0root.1 y hy with rfl | ⟨p, hpcs, hpp⟩
  · rw [hc0root.2] at hp
    exact Option.noConfusion hp
  · rw [hp] at hpp
    exact hmiss p hpcs (Option.some.inj hpp).symm

/-- **C1, amended, witness**: with fetched set `[rootR, orphanReply]` the
only emitted node is the root's, and its id differs from the orphan's. -/
theorem claim1_orphan_dropped_witness :
    (buildNestedComment [rootR, orphanReply] [] [] 2 rootR).id ≠ orphanReply.id :=
  claim1_orphan_dropped [rootR, orphanReply] [] [] none none orphanReply "a"
    (by decide) (by decide) rfl (by decide) _ (List.mem_cons_self _ _)

/-- **C2, counterexample.** The requester `u` is authenticated and holds an
active like on comment `c1`, yet the emitted node for `c1` carries
`hasLiked = false`: the flag is not `true` exactly when the requester has an
active like. -/
theorem claim2_counterexample :
    hasActiveLike [requesterLike] "c1" "u" = true ∧
    (getPostComments [likedComment] [] [requesterLike] none none).map
      (fun n => n.hasLiked) = [false] :=
  ⟨rfl, rfl⟩

/-- **C2, amended.** The handler never resolves a requester on this public
endpoint and materializes every node with the literal `hasLiked := false`:
for every request, `hasLiked` is `false` on every emitted node (root or
nested), whether or not the requester is authenticated or holds a like. -/
theorem claim2_hasLiked_always_false (cs : List Comment)
    (ps : List UserProfile) (ls : List CommentLike)
    (limitParam offsetParam : Option Nat) (node : CommentNode)
    (hmem : node ∈ flattenForest (getPostComments cs ps ls limitParam offsetParam)) :
    node.hasLiked = false := by
  rcases mem_flattenForest_getPostComments hmem with ⟨g, d, _, rfl⟩
  exact buildNestedComment_hasLiked cs ps ls g d

/-- **C2, amended, witness**: the single node emitted for `likedComment`
carries `hasLiked = false`. -/
theorem claim2_hasLiked_always_false_witness :
    (buildNestedComment [likedComment] [] [requesterLike] 1 likedComment).hasLiked
      = false :=
  claim2_hasLiked_always_false [likedComment] [] [requesterLike] none none _
    (List.mem_cons_self _ _)

/-- **C3.** With pagination wide enough to include every root, the number of
emitted nodes (roots plus all nested replies, flattened) equals the number of
fetched rows whose parent chain fully resolves within the set, and the
descendant list under each emitted root consists exactly of the comments
whose transitive parent chain terminates at that root (within the fetch-size
depth bound). -/
theorem claim3_node_count (cs : List Comment) (ps : List UserProfile)
    (ls : List CommentLike) (L : Nat)
    (hn : (cs.map fun c => c.id).Nodup)
    (hwide : (topLevelComments cs).length ≤ effLimit (some L)) :
    (flattenForest (getPostComments cs ps ls (some L) none)).length
      = (cs.filter fun c => chainResolves cs cs.length c).length ∧
    ∀ r ∈ topLevelComments cs, ∀ x : Comment,
      (x ∈ descList cs cs.length r ↔
        x ∈ cs ∧ ∃ d ≤ cs.length, ancestorAt cs d x = some r) := by
  constructor
  · have hslice : ((topLevelComments cs).drop (effOffset none)).take
        (effLimit (some L)) = topLevelComments cs := by
      show ((topLevelComments cs).drop 0).take (effLimit (some L)) = _
      rw [List.drop_zero, List.take_of_length_le hwide]
    rw [getPostComments, hslice, flattenForest_map_build_length,
      forest_length_eq hn]
  · intro r hr x
    rcases mem_topLevelComments.mp hr with ⟨hrcs, _⟩
    constructor
    · intro hx
      exact ⟨descList_subset cs.length r hrcs x hx,
        descList_chain hn cs.length r x hrcs hx⟩
    · rintro ⟨hx, d, hd, hanc⟩
      exact descList_of_ancestorAt d cs.length x r hd hx hanc

/-- **C3, witness**: on `fetched3` the flattened response has exactly the
three resolvable rows, and the descendant list of root A is characterized by
chain termination (checked at reply B). -/
theorem claim3_node_count_witness :
    (flattenForest (getPostComments fetched3 [] [] (some 10) none)).length
      = (fetched3.filter fun c =>
          chainResolves fetched3 fetched3.length c).length ∧
    (c7B ∈ descList fetched3 fetched3.length c7A ↔
      c7B ∈ fetched3 ∧
        ∃ d ≤ fetched3.length, ancestorAt fetched3 d c7B = some c7A) :=
  ⟨(claim3_node_count fetched3 [] [] 10 (by decide) (by decide)).1,
    (claim3_node_count fetched3 [] [] 10 (by decide) (by decide)).2 c7A
      (by decide) c7B⟩

/-- **C4.** The `limit` query parameter defaults to 20 and is capped at 100,
`offset` defaults to 0, and the `(offset, limit)` window is applied to the
root-comment list only: the response equals the corresponding window of the
unpaginated per-root node list, each node being the full recursive
materialization of its root (replies are never paginated). -/
theorem claim4_pagination (cs : List Comment) (ps : List UserProfile)
    (ls : List CommentLike) (limitParam offsetParam : Option Nat)
    (L : Nat) (hL : L ≤ 100) :
    effLimit none = 20 ∧ effOffset none = 0 ∧ effLimit (some L) = L ∧
    effLimit limitParam ≤ 100 ∧
    getPostComments cs ps ls limitParam offsetParam =
      (((topLevelComments cs).map
          (buildNestedComment cs ps ls cs.length)).drop
            (effOffset offsetParam)).take (effLimit limitParam) := by
  refine ⟨rfl, rfl, ?_, ?_, ?_⟩
  · simpa [effLimit] using Nat.min_eq_left hL
  · exact Nat.min_le_right _ _
  · unfold getPostComments
    rw [List.map_take, List.map_drop]

/-- **C4, witness** at the scenario set with `limit=500` (capped to 100) and
absent `offset`. -/
theorem claim4_pagination_witness :
    effLimit none = 20 ∧ effOffset none = 0 ∧ effLimit (some 50) = 50 ∧
    effLimit (some 500) ≤ 100 ∧
    getPostComments fetched7 [] [] (some 500) none =
      (((topLevelComments fetched7).map
          (buildNestedComment fetched7 [] [] fetched7.length)).drop
            (effOffset none)).take (effLimit (some 500)) :=
  claim4_pagination fetched7 [] [] (some 500) none 50 (by decide)

/-! ### Ordering lemmas -/

lemma buildNestedComment_createdAt (cs : List Comment) (ps : List UserProfile)
    (ls : List CommentLike) (fuel : Nat) (c : Comment) :
    (buildNestedComment cs ps ls fuel c).createdAt = c.createdAt := by
  cases fuel <;> rfl

lemma nodeSorted_mk (n : CommentNode) :
    nodeSorted n = (descChain n.replies && nodeListSorted n.replies) := by
  cases n; rfl

lemma descChain_map_build {cs : List Comment} {ps : List UserProfile}
    {ls : List CommentLike} (fuel : Nat) :
    ∀ l : List Comment, l.Pairwise (fun a b => b.createdAt ≤ a.createdAt) →
      descChain (l.map (buildNestedComment cs ps ls fuel)) = true := by
  intro l
  induction l with
  | nil => intro _; rfl
  | cons a t ih =>
    intro h
    rcases List.pairwise_cons.mp h with ⟨hab, ht⟩
    cases t with
    | nil => rfl
    | cons b t2 =>
      show ((buildNestedComment cs ps ls fuel b).createdAt ≤
          (buildNestedComment cs ps ls fuel a).createdAt &&
        descChain ((b :: t2).map (buildNestedComment cs ps ls fuel))) = true
      rw [Bool.and_eq_true]
      refine ⟨?_, ih ht⟩
      rw [buildNestedComment_createdAt, buildNestedComment_createdAt]
      exact decide_eq_true (hab b (List.mem_cons_self b t2))

lemma nodeListSorted_map {l : List Comment} {f : Comment → CommentNode}
    (h : ∀ k ∈ l, nodeSorted (f k) = true) :
    nodeListSorted (l.map f) = true := by
  induction l with
  | nil => rfl
  | cons a t ih =>
    show (nodeSorted (f a) && nodeListSorted (t.map f)) = true
    rw [Bool.and_eq_true]
    exact ⟨h a (List.mem_cons_self a t),
      ih fun k hk => h k (List.mem_cons_of_mem a hk)⟩

lemma nodeSorted_build {cs : List Comment} {ps : List UserProfile}
    {ls : List CommentLike} (hsort : SortedDesc cs) :
    ∀ fuel (c : Comment),
      nodeSorted (buildNestedComment cs ps ls fuel c) = true := by
  intro fuel
  induction fuel with
  | zero => intro c; rfl
  | succ fuel ih =>
    intro c
    rw [nodeSorted_mk, buildNestedComment_replies, Bool.and_eq_true]
    have hrep : (repliesFor cs c.id).Pairwise
        fun a b => b.createdAt ≤ a.createdAt :=
      hsort.sublist (List.filter_sublist _)
    exact ⟨descChain_map_build fuel _ hrep,
      nodeListSorted_map fun k _ => ih k⟩

/-- **C7.** When the fetched rows arrive newest-first (the query's
`orderBy: desc(createdAt)` contract), the emitted root nodes are ordered
newest-first and every emitted node's reply list is newest-first among
siblings at every nesting level; on the documentation scenario (root A
"first", reply B to A, root C "second") default pagination yields
`[C-node, A-node]` with `A-node.replies = [B-node]` and
`C-node.replies = []`. -/
theorem claim7_ordering (cs : List Comment) (ps : List UserProfile)
    (ls : List CommentLike) (limitParam offsetParam : Option Nat)
    (hsort : SortedDesc cs) :
    ((getPostComments cs ps ls limitParam offsetParam).map
        (fun n => n.createdAt)).Pairwise (fun a b => b ≤ a) ∧
    (∀ node ∈ getPostComments cs ps ls limitParam offsetParam,
      nodeSorted node = true) ∧
    getPostComments fetched7 [] [] none none = [node7C, node7A] ∧
    node7A.replies = [node7B] ∧ node7C.replies = [] := by
  refine ⟨?_, ?_, rfl, rfl, rfl⟩
  · have hroots : (topLevelComments cs).Pairwise
        fun a b => b.createdAt ≤ a.createdAt :=
      hsort.sublist (List.filter_sublist _)
    have hslice : (((topLevelComments cs).drop
          (effOffset offsetParam)).take (effLimit limitParam)).Pairwise
        fun a b => b.createdAt ≤ a.createdAt :=
      hroots.sublist
        ((List.take_sublist _ _).trans (List.drop_sublist _ _))
    show ((((topLevelComments cs).drop (effOffset offsetParam)).take
        (effLimit limitParam)).map
          (buildNestedComment cs ps ls cs.length)).map (fun n => n.createdAt)
      |>.Pairwise (fun a b => b ≤ a)
    rw [List.map_map, List.pairwise_map]
    refine hslice.imp ?_
    intro a b hab
    show (buildNestedComment cs ps ls cs.length b).createdAt ≤
      (buildNestedComment cs ps ls cs.length a).createdAt
    rw [buildNestedComment_createdAt, buildNestedComment_createdAt]
    exact hab
  · intro node hnode
    rcases List.mem_map.mp hnode with ⟨c0, _, rfl⟩
    exact nodeSorted_build hsort _ c0

/-- **C7, witness** on the documentation scenario: the fetched set is
newest-first, the emitted root timestamps are descending, and the A-node is
sorted at every level. -/
theorem claim7_ordering_witness :
    ((getPostComments fetched7 [] [] none none).map
        (fun n => n.createdAt)).Pairwise (fun a b => b ≤ a) ∧
    nodeSorted node7A = true :=
  ⟨(claim7_ordering fetched7 [] [] none none
      (show fetched7.Pairwise fun a b => b.createdAt ≤ a.createdAt
        by decide)).1,
    (claim7_ordering fetched7 [] [] none none
      (show fetched7.Pairwise fun a b => b.createdAt ≤ a.createdAt
        by decide)).2.1 node7A
      (List.mem_cons_of_mem _ (List.mem_cons_self _ _))⟩

/-- **C8.** When no profile record exists for an author id, every emitted
node authored by that id — root or nested — carries the literal display name
`"anonymous"`. -/
theorem claim8_anonymous (cs : List Comment) (ps : List UserProfile)
    (ls : List CommentLike) (limitParam offsetParam : Option Nat)
    (u : String) (hp : ps.find? (fun p => p.userId = u) = none)
    (node : CommentNode)
    (hmem : node ∈ flattenForest (getPostComments cs ps ls limitParam offsetParam))
    (hau : node.authorId = u) :
    node.authorUsername = "anonymous" := by
  rcases mem_flattenForest_getPostComments hmem with ⟨g, d, _, rfl⟩
  rw [buildNestedComment_authorId] at hau
  rw [buildNestedComment_authorUsername, usernameFor, hau, hp]

/-- **C8, witness**: the nested reply node of author `"ub"` (no profile
record) resolves to `"anonymous"`. -/
theorem claim8_anonymous_witness :
    (buildNestedComment fetched7 [] [] 1 c7B).authorUsername = "anonymous" :=
  claim8_anonymous fetched7 [] [] none none "ub" rfl _
    (by
      rw [mem_flattenForest]
      refine ⟨buildNestedComment fetched7 [] [] 3 c7A, ?_, ?_⟩
      · exact List.mem_cons_of_mem _ (List.mem_cons_self _ _)
      · rw [flattenNode_cons]
        exact List.mem_cons_of_mem _ (List.mem_cons_self _ _))
    rfl

/-- **C9.** A comment with no replies in the fetched set is emitted with
`replies = []`; the `replies` field is part of the `CommentNode` structure,
hence present (empty, not absent) in the response shape. -/
theorem claim9_empty_replies (cs : List Comment) (ps : List UserProfile)
    (ls : List CommentLike) (limitParam offsetParam : Option Nat)
    (node : CommentNode)
    (hmem : node ∈ flattenForest (getPostComments cs ps ls limitParam offsetParam))
    (hleaf : ∀ c ∈ cs, truthyParent c ≠ some node.id) :
    node.replies = [] := by
  rcases mem_flattenForest_getPostComments hmem with ⟨g, d, _, rfl⟩
  cases g with
  | zero => rfl
  | succ g =>
    rw [buildNestedComment_replies]
    have hrep : repliesFor cs d.id = [] := by
      rw [repliesFor, List.filter_eq_nil_iff]
      intro c hc
      have := hleaf c hc
      rw [buildNestedComment_id] at this
      simpa using this
    rw [hrep]
    rfl

/-- **C9, witness**: the node of leaf comment B has `replies = []`. -/
theorem claim9_empty_replies_witness :
    (buildNestedComment fetched7 [] [] 1 c7B).replies = [] :=
  claim9_empty_replies fetched7 [] [] none none _
    (by
      rw [mem_flattenForest]
      refine ⟨buildNestedComment fetched7 [] [] 3 c7A, ?_, ?_⟩
      · exact List.mem_cons_of_mem _ (List.mem_cons_self _ _)
      · rw [flattenNode_cons]
        exact List.mem_cons_of_mem _ (List.mem_cons_self _ _))
    (by decide)

/-! ### Like-store lemmas -/

lemma length_filter_ne_id (e : CommentLike) :
    ∀ l : List CommentLike, (l.map fun x => x.id).Nodup → e ∈ l →
      (l.filter fun x => x.id ≠ e.id).length + 1 = l.length := by
  intro l
  induction l with
  | nil => intro _ h; cases h
  | cons a t ih =>
    intro hnod he
    have hnt : (t.map fun x => x.id).Nodup := (List.nodup_cons.mp hnod).2
    by_cases hae : a.id = e.id
    · have hta : ∀ x ∈ t, x.id ≠ e.id := by
        intro x hx hxe
        exact (List.nodup_cons.mp hnod).1
          (List.mem_map.mpr ⟨x, hx, hxe.trans hae.symm⟩)
      have : (a :: t).filter (fun x => x.id ≠ e.id) = t := by
        rw [List.filter_cons_of_neg (by simp [hae]),
          List.filter_eq_self.mpr (by intro x hx; simpa using hta x hx)]
      rw [this]
      simp
    · have het : e ∈ t := by
        rcases List.mem_cons.mp he with rfl | h
        · exact absurd rfl hae
        · exact h
      rw [List.filter_cons_of_pos (by simpa using hae)]
      simp only [List.length_cons]
      rw [Nat.succ_add, ih hnt het]

lemma pair_injOn_of_wf {rows : List CommentLike}
    (hpairs : (rows.map fun l => (l.commentId, l.userId)).Nodup)
    {x y : CommentLike} (hx : x ∈ rows) (hy : y ∈ rows)
    (hc : x.commentId = y.commentId) (hu : x.userId = y.userId) : x = y :=
  List.inj_on_of_nodup_map hpairs hx hy (by rw [hc, hu])

/-- **C5.** The like count reported for a comment — the row count the GET
aggregation and the toggle response both compute — equals the number of
distinct authors holding an active like on it (under the
`unique_comment_like` index), and toggling twice in succession by the same
authenticated author returns both the comment's like count and the author's
like state to their original values. -/
theorem claim5_like_count_and_toggle (comments : List Comment)
    (st : LikeStore) (cid uid : String) (c0 : Comment)
    (hwf : LikeStoreWF st)
    (hex : comments.find? (fun c => c.id = cid) = some c0) :
    commentLikeCount st.rows cid = distinctLikerCount st.rows cid ∧
    commentLikeCount
        ((toggleLike comments ((toggleLike comments st cid uid).2) cid uid).2).rows
        cid
      = commentLikeCount st.rows cid ∧
    hasActiveLike
        ((toggleLike comments ((toggleLike comments st cid uid).2) cid uid).2).rows
        cid uid
      = hasActiveLike st.rows cid uid := by
  obtain ⟨hids, hlt, hpairs⟩ := hwf
  have hcount : commentLikeCount st.rows cid = distinctLikerCount st.rows cid := by
    rw [commentLikeCount, distinctLikerCount]
    have hfl : ((st.rows.filter fun l => l.commentId = cid).map
        fun l => (l.commentId, l.userId)).Nodup :=
      hpairs.sublist (List.Sublist.map _ (List.filter_sublist _))
    have hflnd : (st.rows.filter fun l => l.commentId = cid).Nodup :=
      hfl.of_map _
    have hu : ((st.rows.filter fun l => l.commentId = cid).map
        fun l => l.userId).Nodup := by
      refine hflnd.map_on ?_
      intro x hx y hy hxy
      have hxc : x.commentId = cid := by
        have := (List.mem_filter.mp hx).2; simpa using this
      have hyc : y.commentId = cid := by
        have := (List.mem_filter.mp hy).2; simpa using this
      exact pair_injOn_of_wf hpairs (List.mem_filter.mp hx).1
        (List.mem_filter.mp hy).1 (hxc.trans hyc.symm) hxy
    rw [List.dedup_eq_self.mpr hu, List.length_map]
  refine ⟨hcount, ?_⟩
  cases hfind : st.rows.find? (fun l => l.commentId = cid && l.userId = uid) with
  | some e =>
    have hpe : (e.commentId = cid) ∧ (e.userId = uid) := by
      have := List.find?_some hfind
      simpa using this
    have hemem : e ∈ st.rows := List.mem_of_find?_eq_some hfind
    have hst1 : (toggleLike comments st cid uid).2 =
        ⟨st.rows.filter fun l => l.id ≠ e.id, st.nextId⟩ := by
      simp only [toggleLike, hex, hfind]
    have hnone : (st.rows.filter fun l => l.id ≠ e.id).find?
        (fun l => l.commentId = cid && l.userId = uid) = none := by
      rw [List.find?_eq_none]
      intro x hx hpx
      have hxmem : x ∈ st.rows := (List.mem_filter.mp hx).1
      have hxne : ¬(x.id = e.id) := by
        have := (List.mem_filter.mp hx).2; simpa using this
      have hpx2 : x.commentId = cid ∧ x.userId = uid := by simpa using hpx
      exact hxne (congrArg CommentLike.id
        (pair_injOn_of_wf hpairs hxmem hemem
          (hpx2.1.trans hpe.1.symm) (hpx2.2.trans hpe.2.symm)))
    have hst2 : (toggleLike comments
          (⟨st.rows.filter fun l => l.id ≠ e.id, st.nextId⟩ : LikeStore)
          cid uid).2 =
        ⟨(st.rows.filter fun l => l.id ≠ e.id) ++ [⟨st.nextId, cid, uid⟩],
          st.nextId + 1⟩ := by
      simp only [toggleLike, hex, hnone]
    rw [hst1, hst2]
    constructor
    · -- like count restored: remove e then append a fresh like row
      rw [commentLikeCount, commentLikeCount, List.filter_append]
      have hnew : ([(⟨st.nextId, cid, uid⟩ : CommentLike)].filter
          fun l => l.commentId = cid) = [⟨st.nextId, cid, uid⟩] := by simp
      rw [hnew, List.length_append]
      have hswap : ((st.rows.filter fun l => l.id ≠ e.id).filter
            fun l => l.commentId = cid)
          = ((st.rows.filter fun l => l.commentId = cid).filter
            fun l => l.id ≠ e.id) := by
        rw [List.filter_comm]
      rw [hswap]
      have hsubnod : ((st.rows.filter fun l => l.commentId = cid).map
          fun x => x.id).Nodup :=
        hids.sublist (List.Sublist.map _ (List.filter_sublist _))
      have hesub : e ∈ st.rows.filter fun l => l.commentId = cid :=
        List.mem_filter.mpr ⟨hemem, by simpa using hpe.1⟩
      simpa using length_filter_ne_id e _ hsubnod hesub
    · -- like state restored: the fresh row re-establishes the like
      have horig : hasActiveLike st.rows cid uid = true := by
        rw [hasActiveLike, List.any_eq_true]
        exact ⟨e, hemem, by simp [hpe.1, hpe.2]⟩
      rw [horig, hasActiveLike, List.any_eq_true]
      exact ⟨⟨st.nextId, cid, uid⟩, List.mem_append_right _
        (List.mem_singleton.mpr rfl), by simp⟩
  | none =>
    have hst1 : (toggleLike comments st cid uid).2 =
        ⟨st.rows ++ [⟨st.nextId, cid, uid⟩], st.nextId + 1⟩ := by
      simp only [toggleLike, hex, hfind]
    have hfind2 : ((st.rows ++ [(⟨st.nextId, cid, uid⟩ : CommentLike)]).find?
        fun l => l.commentId = cid && l.userId = uid)
        = some ⟨st.nextId, cid, uid⟩ := by
      rw [List.find?_append, hfind]
      simp
    have hsame : ((st.rows ++ [(⟨st.nextId, cid, uid⟩ : CommentLike)]).filter
        fun l => l.id ≠ (⟨st.nextId, cid, uid⟩ : CommentLike).id) = st.rows := by
      rw [List.filter_append]
      have h1 : (st.rows.filter
          fun l => l.id ≠ (⟨st.nextId, cid, uid⟩ : CommentLike).id) = st.rows :=
        List.filter_eq_self.mpr fun a ha => by
          simpa using Nat.ne_of_lt (hlt a ha)
      have h2 : (([(⟨st.nextId, cid, uid⟩ : CommentLike)]).filter
          fun l => l.id ≠ (⟨st.nextId, cid, uid⟩ : CommentLike).id) = [] := by
        simp
      rw [h1, h2, List.append_nil]
    have hst2 : (toggleLike comments
          (⟨st.rows ++ [⟨st.nextId, cid, uid⟩], st.nextId + 1⟩ : LikeStore)
          cid uid).2 =
        ⟨st.rows, st.nextId + 1⟩ := by
      simp only [toggleLike, hex, hfind2, hsame]
    rw [hst1, hst2]
    have horig : hasActiveLike st.rows cid uid = false := by
      rw [hasActiveLike, List.any_eq_false]
      intro x hx
      have := List.find?_eq_none.mp hfind x hx
      simpa using this
    exact ⟨rfl, rfl⟩

/-- **C5, witness** starting from an empty like store on comment `"c1"`. -/
theorem claim5_like_count_and_toggle_witness :
    commentLikeCount (⟨[], 0⟩ : LikeStore).rows "c1" =
      distinctLikerCount (⟨[], 0⟩ : LikeStore).rows "c1" ∧
    commentLikeCount
        ((toggleLike [likedComment]
          ((toggleLike [likedComment] ⟨[], 0⟩ "c1" "u").2) "c1" "u").2).rows
        "c1"
      = commentLikeCount (⟨[], 0⟩ : LikeStore).rows "c1" ∧
    hasActiveLike
        ((toggleLike [likedComment]
          ((toggleLike [likedComment] ⟨[], 0⟩ "c1" "u").2) "c1" "u").2).rows
        "c1" "u"
      = hasActiveLike (⟨[], 0⟩ : LikeStore).rows "c1" "u" :=
  claim5_like_count_and_toggle [likedComment] ⟨[], 0⟩ "c1" "u" likedComment
    ⟨List.nodup_nil, by simp, List.nodup_nil⟩ rfl

/-- **C6.** The create handler validates in order — content non-empty after
trimming, post exists, parent exists, parent belongs to the same post — a
cross-post parent is rejected with the `parentDifferentPost` validation
error, and every rejected request leaves the comments table unchanged. -/
theorem claim6_create_validation (posts : List Post) (comments : List Comment)
    (postId uid content : String) (parentCommentId : Option String)
    (newId : String) (now : Nat) :
    (jsTrim content = "" →
      createComment posts comments postId uid content parentCommentId newId now
        = (.error .invalidContent, comments)) ∧
    (jsTrim content ≠ "" → posts.find? (fun p => p.id = postId) = none →
      createComment posts comments postId uid content parentCommentId newId now
        = (.error .postNotFound, comments)) ∧
    (∀ post pid, jsTrim content ≠ "" →
      posts.find? (fun p => p.id = postId) = some post →
      truthyParam parentCommentId = some pid →
      comments.find? (fun c => c.id = pid) = none →
      createComment posts comments postId uid content parentCommentId newId now
        = (.error .parentNotFound, comments)) ∧
    (∀ post pid parent, jsTrim content ≠ "" →
      posts.find? (fun p => p.id = postId) = some post →
      truthyParam parentCommentId = some pid →
      comments.find? (fun c => c.id = pid) = some parent →
      parent.postId ≠ postId →
      createComment posts comments postId uid content parentCommentId newId now
        = (.error .parentDifferentPost, comments)) ∧
    (∀ e, (createComment posts comments postId uid content parentCommentId
        newId now).1 = .error e →
      (createComment posts comments postId uid content parentCommentId
        newId now).2 = comments) := by
  refine ⟨?_, ?_, ?_, ?_, ?_⟩
  · intro h
    simp [createComment, h]
  · intro h hpost
    simp [createComment, h, hpost]
  · intro post pid h hpost hpar hfind
    simp [createComment, h, hpost, hpar, hfind]
  · intro post pid parent h hpost hpar hfind hdiff
    simp [createComment, h, hpost, hpar, hfind, hdiff]
  · intro e
    unfold createComment
    split
    · intro _; rfl
    · split
      · intro _; rfl
      · split
        · intro h
          simp at h
        · split
          · intro _; rfl
          · split
            · intro _; rfl
            · intro h
              simp at h

/-- **C6, witness**: a reply created under post `"Q"` whose parent comment
`"A"` belongs to post `"P"` is rejected with the cross-post validation error
and the comments table is unchanged. -/
theorem claim6_create_validation_witness :
    createComment [⟨"Q"⟩] fetched7 "Q" "u9" "hi" (some "A") "n1" 9
      = (.error .parentDifferentPost, fetched7) :=
  (claim6_create_validation [⟨"Q"⟩] fetched7 "Q" "u9" "hi" (some "A")
      "n1" 9).2.2.2.1 ⟨"Q"⟩ "A" c7A (by decide) rfl rfl (by decide) (by decide)

/-- **C10.** A successful comment update changes only the target's `content`
and `updatedAt`: its `id`, `postId`, `userId`, `parentCommentId` and
`createdAt` are unchanged, and every row whose id differs from the target id
is left exactly as it was, at its original position. -/
theorem claim10_update_frame (comments : List Comment)
    (commentId uid content : String) (now : Nat) (c : Comment)
    (hc : jsTrim content ≠ "")
    (hf : comments.find? (fun x => x.id = commentId) = some c)
    (ho : c.userId = uid) :
    (updateComment comments commentId uid content now).1 =
      .ok { c with content := jsTrim content, updatedAt := now } ∧
    (updateComment comments commentId uid content now).2.length
      = comments.length ∧
    ∀ i (h : i < comments.length),
      ∃ x', (updateComment comments commentId uid content now).2[i]? = some x' ∧
        x'.id = comments[i].id ∧
        x'.postId = comments[i].postId ∧
        x'.userId = comments[i].userId ∧
        x'.parentCommentId = comments[i].parentCommentId ∧
        x'.createdAt = comments[i].createdAt ∧
        (comments[i].id ≠ commentId → x' = comments[i]) ∧
        (comments[i].id = commentId →
          x'.content = jsTrim content ∧ x'.updatedAt = now) := by
  have hres : updateComment comments commentId uid content now =
      (.ok { c with content := jsTrim content, updatedAt := now },
        comments.map fun x =>
          if x.id = commentId then
            { x with content := jsTrim content, updatedAt := now }
          else x) := by
    simp [updateComment, hc, hf, ho]
  refine ⟨by rw [hres], by rw [hres]; simp, ?_⟩
  intro i h
  rw [hres]
  simp only [List.getElem?_map, List.getElem?_eq_getElem h, Option.map_some']
  by_cases hid : comments[i].id = commentId
  · rw [if_pos hid]
    exact ⟨_, rfl, rfl, rfl, rfl, rfl, rfl, fun hne => absurd hid hne,
      fun _ => ⟨rfl, rfl⟩⟩
  · rw [if_neg hid]
    exact ⟨_, rfl, rfl, rfl, rfl, rfl, rfl, fun _ => rfl,
      fun heq => absurd heq hid⟩

/-- **C10, witness** at the scenario table, updating comment `"B"` as its
owner `"ub"`. -/
theorem claim10_update_frame_witness :
    (updateComment fetched7 "B" "ub" " edited " 7).1 =
      .ok { c7B with content := jsTrim " edited ", updatedAt := 7 } ∧
    (updateComment fetched7 "B" "ub" " edited " 7).2.length
      = fetched7.length ∧
    ∀ i (h : i < fetched7.length),
      ∃ x', (updateComment fetched7 "B" "ub" " edited " 7).2[i]? = some x' ∧
        x'.id = fetched7[i].id ∧
        x'.postId = fetched7[i].postId ∧
        x'.userId = fetched7[i].userId ∧
        x'.parentCommentId = fetched7[i].parentCommentId ∧
        x'.createdAt = fetched7[i].createdAt ∧
        (fetched7[i].id ≠ "B" → x' = fetched7[i]) ∧
        (fetched7[i].id = "B" →
          x'.content = jsTrim " edited " ∧ x'.updatedAt = 7) :=
  claim10_update_frame fetched7 "B" "ub" " edited " 7 c7B (by decide)
    (by decide) rfl

end DIU
